import Mathlib

set_option autoImplicit false

/-
  Verification development for the mbrowser gateway (Go sources: store.go,
  server.go, util.go).  The Go code is shallowly embedded: pure helpers from
  the `strings` package are reimplemented on `List Char` / `String`
  (ASCII fragment, which covers every constant the code compares against),
  the upstream event-stream parsing loop of `MiuiClient.Chat` becomes a
  structural recursion over the list of lines delivered by the reader, and
  the stateful store operations become explicit state-passing functions.
  `encoding/json.Unmarshal` into `miuiStreamChunk` is an external library
  call and is modelled as a parameter `parse : String → Option MiuiStreamChunk`
  (`none` = unmarshal error).
-/

namespace MBrowser

/-- Go `unicode.IsSpace` restricted to the ASCII range (the characters Go's
`strings.TrimSpace` strips from ASCII input). -/
def isGoSpace (c : Char) : Bool :=
  c = ' ' || c = '\t' || c = '\n' || c = '\x0b' || c = '\x0c' || c = '\r'

/-- Go `strings.TrimSpace` on a character list. -/
def goTrimSpaceL (l : List Char) : List Char :=
  ((l.dropWhile isGoSpace).reverse.dropWhile isGoSpace).reverse

/-- Go `strings.TrimSpace` on `String`. -/
def goTrimSpace (s : String) : String :=
  ⟨goTrimSpaceL s.data⟩

/-- Go `strings.HasPrefix s pre` on character lists (second argument is the
candidate leading segment). -/
def lStartsWith : List Char → List Char → Bool
  | _, [] => true
  | [], _ :: _ => false
  | c :: s, p :: ps => c == p && lStartsWith s ps

/-- Go `strings.TrimPrefix`. -/
def goTrimPre (l pre : List Char) : List Char :=
  if lStartsWith l pre then l.drop pre.length else l

/-- Go `strings.Contains s sub`: `sub` occurs as a contiguous segment of `s`. -/
def containsSub : List Char → List Char → Bool
  | s, sub =>
    if lStartsWith s sub then true
    else
      match s with
      | [] => false
      | _ :: rest => containsSub rest sub

/-- ASCII fragment of Go `strings.ToLower` (per character). -/
def goLowerChar (c : Char) : Char :=
  if 'A' ≤ c && c ≤ 'Z' then Char.ofNat (c.toNat + 32) else c

/-- ASCII fragment of Go `strings.ToLower`. -/
def goToLower (l : List Char) : List Char :=
  l.map goLowerChar

/-- `Message` record from store.go: one turn of a conversation. -/
structure Message where
  source : String
  content : String
deriving DecidableEq

/-- The `answer` field of the upstream JSON chunk (`miuiStreamChunk` in
store.go); the `intentionInfo` field is never read by the loop and is
omitted. -/
structure MiuiStreamChunk where
  answer : String
deriving DecidableEq

/-- What the body of the `Chat` read loop does with one line: break on the
`[DONE]` sentinel, append-and-callback a non-empty answer fragment, or fall
through to the next line. -/
inductive LineAction where
  | stop
  | emit (frag : String)
  | skip
deriving DecidableEq

/-- One iteration of the line-processing part of the `Chat` loop (store.go):
trim the line, check for the `data:` marker, strip it, recognise the
`[DONE]` sentinel, otherwise unmarshal and emit a non-empty `answer`. -/
def stepLine (parse : String → Option MiuiStreamChunk) (line : String) :
    LineAction :=
  let t := goTrimSpaceL line.data
  if lStartsWith t "data:".data then
    let j := goTrimSpaceL (goTrimPre t "data:".data)
    if j = "[DONE]".data then .stop
    else
      match parse ⟨j⟩ with
      | none => .skip
      | some chunk => if chunk.answer ≠ "" then .emit chunk.answer else .skip
  else .skip

/-- Result of the streaming part of `Chat`: the accumulated `full` builder,
the sequence of `onChunk` callback arguments in call order, and whether the
call returns a nil error. -/
structure ChatOut where
  full : String
  events : List String
  ok : Bool
deriving DecidableEq

/-- The `Chat` read loop.  `lines` are the strings successive
`reader.ReadString` calls deliver; `endOk = true` models the reader ending
with `io.EOF` after the listed lines (normal end of input), `endOk = false`
models the next read failing with a non-EOF error, in which case Go returns
`full.String(), err`.  `acc` and `evs` are the builder and callback history
accumulated so far. -/
def chatAux (parse : String → Option MiuiStreamChunk) (endOk : Bool) :
    List String → String → List String → ChatOut
  | [], acc, evs => ⟨acc, evs, endOk⟩
  | l :: ls, acc, evs =>
    match stepLine parse l with
    | .stop => ⟨acc, evs, true⟩
    | .emit a => chatAux parse endOk ls (acc ++ a) (evs ++ [a])
    | .skip => chatAux parse endOk ls acc evs

/-- The streaming phase of `MiuiClient.Chat` on a 200-status response. -/
def chatStream (parse : String → Option MiuiStreamChunk)
    (lines : List String) (endOk : Bool) : ChatOut :=
  chatAux parse endOk lines "" []

/-- Specification-level view of one line: the fragment it contributes, if
any. -/
def emitOf (parse : String → Option MiuiStreamChunk) (l : String) :
    Option String :=
  match stepLine parse l with
  | .emit a => some a
  | _ => none

/-- `true` iff the line is not the `[DONE]` sentinel. -/
def notStop (parse : String → Option MiuiStreamChunk) (l : String) : Bool :=
  match stepLine parse l with
  | .stop => false
  | _ => true

/-- Concatenation of a list of strings in order. -/
def strConcat : List String → String
  | [] => ""
  | s :: l => s ++ strConcat l

/-- The non-empty answer fragments of the valid `data:` lines that precede
the first `[DONE]` sentinel, in arrival order. -/
def specFragments (parse : String → Option MiuiStreamChunk)
    (lines : List String) : List String :=
  (lines.takeWhile (notStop parse)).filterMap (emitOf parse)

/-- A concrete unmarshal oracle for the example stream of claim C1: the
three payload tokens decode to the fragments "Hel", "lo", " world". -/
def exampleParse : String → Option MiuiStreamChunk := fun s =>
  if s = "one" then some ⟨"Hel"⟩
  else if s = "two" then some ⟨"lo"⟩
  else if s = "three" then some ⟨" world"⟩
  else none

/-- The example upstream stream of claim C1: three valid `data:` lines. -/
def exampleLines : List String :=
  ["data: one", "data: two", "data: three"]

/-- Outcome of the upstream exchange as `MiuiClient.Chat` observes it after
the request is built: `transportErr` is a failure of `httpClient.Do`
(including context cancellation before/while connecting); `response` carries
the HTTP status and, for status 200, the stream (`endOk = false` is a
mid-stream non-EOF read error, which is also how a disconnect surfaces). -/
inductive UpstreamOutcome where
  | transportErr
  | response (status : Nat) (lines : List String) (endOk : Bool)

/-- `MiuiClient.Chat` from the response onwards: returns the answer string
and an error flag (`true` = the Go function returns a non-nil error). -/
def miuiChat (parse : String → Option MiuiStreamChunk)
    (u : UpstreamOutcome) : String × Bool :=
  match u with
  | .transportErr => ("", true)
  | .response status lines endOk =>
    if status ≠ 200 then ("", true)
    else
      let o := chatStream parse lines endOk
      (o.full, !o.ok)

/-- The mutable per-conversation fields touched by `performChat`
(server.go): history, dirty flag, timestamps and the in-use counter. -/
structure ConvMut where
  history : List Message
  dirty : Bool
  lastActive : Nat
  lastPersist : Nat
  inUse : Int
deriving DecidableEq

/-- `Server.performChat` (server.go): bump the in-use counter, lock the
conversation, stamp `LastActive` (`t1`), run the upstream exchange, append
the user and assistant turns and set `Dirty` only when the exchange
returned no error and the trimmed answer is non-empty, stamp `LastActive`
again (`t2`), unlock, and drop the in-use counter (net zero). -/
def performChat (c : ConvMut) (query : String)
    (parse : String → Option MiuiStreamChunk) (u : UpstreamOutcome)
    (t1 t2 : Nat) : ConvMut × String × Bool :=
  let c1 : ConvMut := { c with lastActive := t1 }
  let r := miuiChat parse u
  let c2 : ConvMut :=
    if !r.2 && goTrimSpace r.1 ≠ "" then
      { c1 with
          history := c1.history
            ++ [⟨"user", query⟩, ⟨"assistant", r.1⟩],
          dirty := true }
    else c1
  ({ c2 with lastActive := t2 }, r.1, r.2)

/-- One row of the `conversations` table.  `historyJson` stands for the
`json.Marshal` serialization of the history; Go's encoding of `Message`
records round-trips, so the row is identified with the serialized list. -/
structure Row where
  internalConvId : String
  historyJson : List Message
  updatedAt : Nat
deriving DecidableEq

/-- The write request `persistConversation` submits: an upsert of the row
keyed by `(user_key, conversation_id)`. -/
structure PersistReq where
  userKey : String
  conversationId : String
  row : Row
deriving DecidableEq

/-- Effect of one committed upsert transaction on the conversations table
(`INSERT ... ON CONFLICT(user_key, conversation_id) DO UPDATE`). -/
def applyReq (db : String × String → Option Row) (q : PersistReq) :
    String × String → Option Row :=
  fun k => if k = (q.userKey, q.conversationId) then some q.row else db k

/-- `Store.writeLoop`: the single consumer drains the queue in FIFO order,
executing one transaction per request. -/
def runQueue (db : String × String → Option Row) (qs : List PersistReq) :
    String × String → Option Row :=
  qs.foldl applyReq db

/-- In-memory `Conversation` object (store.go).  `allocId` models object
identity: each construction gets a fresh value, so two states share a
conversation object exactly when the `allocId`s agree. -/
structure Conv where
  userKey : String
  conversationId : String
  oaid : String
  miid : String
  internalId : String
  allocId : Nat
  history : List Message
  lastActive : Nat
  lastPersist : Nat
  dirty : Bool
deriving DecidableEq

/-- `Store.persistConversation`: under the conversation lock, snapshot the
history and identifiers, clear the dirty flag and stamp `LastPersist`, then
submit a fire-and-forget upsert of the snapshot. -/
def persistConversation (conv : Conv) (now : Nat) : Conv × PersistReq :=
  ({ conv with dirty := false, lastPersist := now },
   ⟨conv.userKey, conv.conversationId,
    ⟨conv.internalId, conv.history, now⟩⟩)

/-- The options `parseRequestOptions` (server.go) extracts from a request. -/
structure RequestOptions where
  stream : Bool
  deepThinking : Bool
  onlineSearch : Bool
  model : String
deriving DecidableEq

/-- `normalizeModel` (server.go): every inbound model value maps to the
fixed literal. -/
def normalizeModel (model : Option (List Char)) : String :=
  match model with
  | none => "DOUBAO"
  | some m => if m = [] then "DOUBAO" else "DOUBAO"

/-- `parseModelFlags` (server.go): lower-case the requested model name and
test for the `-thinking` / `-search` markers with `strings.Contains`; the
third component reports whether any marker was found.  `none` models an
absent or non-string `model` field (the type assertion yields ""). -/
def parseModelFlags (model : Option (List Char)) : Bool × Bool × Bool :=
  match model with
  | none => (false, false, false)
  | some m =>
    if m = [] then (false, false, false)
    else
      let low := goToLower m
      let deep := containsSub low "-thinking".data
      let srch := containsSub low "-search".data
      (deep, srch, deep || srch)

/-- `parseRequestOptions` (server.go): body flags default to `true` when
absent, the `X-Deep-Thinking` / `X-Online-Search` / `X-Disable-Search`
headers override them, and the model-name markers override everything. -/
def parseRequestOptions (bodyStream : Bool)
    (bodyDeep bodySearch : Option Bool)
    (hDeep hSearch hDisable : Bool) (model : Option (List Char)) :
    RequestOptions :=
  let dt0 := bodyDeep.getD true
  let os0 := bodySearch.getD true
  let dt1 := if hDeep then true else dt0
  let os1 := if hSearch then true else os0
  let os2 := if hDisable then false else os1
  let mf := parseModelFlags model
  let fl :=
    if mf.2.2 then
      if mf.1 && mf.2.1 then (true, true)
      else if mf.1 then (true, false)
      else if mf.2.1 then (false, true)
      else (dt1, os2)
    else (dt1, os2)
  { stream := bodyStream, deepThinking := fl.1, onlineSearch := fl.2,
    model := normalizeModel model }

/-- One lower-case hex digit as produced by Go `encoding/hex`. -/
def hexDigit (n : Nat) : Char :=
  if n < 10 then Char.ofNat (48 + n) else Char.ofNat (87 + n)

/-- The two hex digits of one byte. -/
def hexByte (b : Nat) : List Char :=
  [hexDigit (b / 16), hexDigit (b % 16)]

/-- Go `hex.EncodeToString` on a byte slice (bytes as `Nat < 256`). -/
def hexEncode (bs : List Nat) : List Char :=
  (bs.map hexByte).flatten

/-- `newUserKey` (util.go): 12 random bytes, hex-encoded, behind "anon_".
The `crypto/rand` draw is modelled by the explicit `entropy` argument. -/
def newUserKey (entropy : List Nat) : List Char :=
  ("anon_" : String).data ++ hexEncode entropy

/-- `extractUserKey` (server.go): trim the Authorization value; empty means
a fresh anonymous key; a case-insensitive "Bearer " leader is stripped
(a drop of its 7 bytes) and the remainder trimmed; anything else is
returned trimmed as-is. -/
def extractUserKey (authHeader : List Char) (entropy : List Nat) :
    List Char :=
  let auth := goTrimSpaceL authHeader
  if auth = [] then newUserKey entropy
  else
    let low := goToLower auth
    if lStartsWith low ("bearer " : String).data then
      goTrimSpaceL (auth.drop 7)
    else auth

/-- First-match lookup in a key-value list, the model of reading a Go map
guarded by the table lock. -/
def lookupKey {α : Type} : List (String × α) → String → Option α
  | [], _ => none
  | (k, v) :: rest, key => if k = key then some v else lookupKey rest key

/-- In-memory `User` record (store.go). -/
structure UserRec where
  oaid : String
  miid : String
deriving DecidableEq

/-- The parts of `Store` that `GetConversation` touches: the conversation
cache, the user cache, the two backing tables, and an allocation counter
modelling object identity of constructed `Conversation`s. -/
structure StoreSt where
  convs : List (String × Conv)
  users : List (String × UserRec)
  dbUsers : List (String × UserRec)
  dbConvs : String × String → Option Row
  nextAlloc : Nat

/-- `newConversationID` (util.go): the user's OAID followed by the current
millisecond timestamp. -/
def newConversationID (oaid : String) (ms : Nat) : String :=
  oaid ++ toString ms

/-- `Store.getOrCreateUser`: user-cache hit, else read-through from the
backend, else synthesize fresh identity fields (`oaidFresh`, `miidFresh`
model the random draws), insert-if-absent through the write queue
(blocking) and read back. -/
def getOrCreateUser (st : StoreSt) (userKey oaidFresh miidFresh : String) :
    (String × String) × StoreSt :=
  match lookupKey st.users userKey with
  | some u => ((u.oaid, u.miid), st)
  | none =>
    match lookupKey st.dbUsers userKey with
    | some u =>
      ((u.oaid, u.miid), { st with users := (userKey, u) :: st.users })
    | none =>
      ((oaidFresh, miidFresh),
       { st with
          users := (userKey, ⟨oaidFresh, miidFresh⟩) :: st.users,
          dbUsers := (userKey, ⟨oaidFresh, miidFresh⟩) :: st.dbUsers })

/-- `Store.GetConversation`: default the session id, look the composite key
up in the cache and return the cached object on a hit; on a miss resolve
the user, rehydrate the persisted row if one exists (else a fresh internal
id from the OAID and `nowMs`), construct the conversation and insert it. -/
def getConversation (st : StoreSt)
    (userKey conversationID oaidFresh miidFresh : String)
    (nowMs now : Nat) : Conv × StoreSt :=
  let convId := if conversationID = "" then "default" else conversationID
  let key := userKey ++ "|" ++ convId
  match lookupKey st.convs key with
  | some conv => (conv, st)
  | none =>
    let u := getOrCreateUser st userKey oaidFresh miidFresh
    let ids :=
      match u.2.dbConvs (userKey, convId) with
      | some row => (row.internalConvId, row.historyJson)
      | none => (newConversationID u.1.1 nowMs, ([] : List Message))
    let conv : Conv :=
      { userKey := userKey, conversationId := convId, oaid := u.1.1,
        miid := u.1.2, internalId := ids.1, allocId := u.2.nextAlloc,
        history := ids.2, lastActive := now, lastPersist := now,
        dirty := false }
    (conv,
     { u.2 with
        convs := (key, conv) :: u.2.convs,
        nextAlloc := u.2.nextAlloc + 1 })

/-- Persist / evict thresholds from store.go, in seconds. -/
def persistAfter : Nat := 30

/-- Eviction idle threshold from store.go, in seconds. -/
def evictAfter : Nat := 60

/-- One cache-table entry as the cleanup loop observes it.  The in-use
counter is read twice (an atomic load during the read-lock scan and another
under the write lock); the two observed values are recorded as separate
fields because concurrent requests may change the counter between the
passes. -/
structure CEntry where
  conv : Conv
  inUseScan : Nat
  inUseRecheck : Nat
deriving DecidableEq

/-- Go `delete(s.convs, key)` on the list model. -/
def eraseKey {α : Type} (tbl : List (String × α)) (key : String) :
    List (String × α) :=
  tbl.filter (fun p => decide (p.1 ≠ key))

/-- The read-lock pass of `cleanupLoop`: skip in-use entries, persist dirty
entries idle past the persist threshold, and collect keys idle past the
eviction threshold.  Returns the updated table, the evict-key list and the
submitted write requests, in iteration order. -/
def pass1 (now : Nat) :
    List (String × CEntry) →
      List (String × CEntry) × List String × List PersistReq
  | [] => ([], [], [])
  | (k, e) :: rest =>
    let r := pass1 now rest
    if 0 < e.inUseScan then
      ((k, e) :: r.1, r.2.1, r.2.2)
    else
      let pe :=
        if e.conv.dirty = true ∧ persistAfter ≤ now - e.conv.lastPersist
        then ((persistConversation e.conv now).1,
              [(persistConversation e.conv now).2])
        else (e.conv, [])
      let ev := if evictAfter ≤ now - e.conv.lastActive then [k] else []
      ((k, { e with conv := pe.1 }) :: r.1, ev ++ r.2.1, pe.2 ++ r.2.2)

/-- The write-lock pass of `cleanupLoop`: for each collected key, re-check
existence and the in-use counter, then persist unconditionally and delete. -/
def pass2 (now : Nat) :
    List String → List (String × CEntry) →
      List (String × CEntry) × List PersistReq
  | [], tbl => (tbl, [])
  | k :: ks, tbl =>
    match lookupKey tbl k with
    | none => pass2 now ks tbl
    | some e =>
      if 0 < e.inUseRecheck then pass2 now ks tbl
      else
        let r := pass2 now ks (eraseKey tbl k)
        (r.1, (persistConversation e.conv now).2 :: r.2)

/-- One tick of `cleanupLoop`: the read-lock scan followed by the
write-lock eviction pass; returns the resulting table and every submitted
write request. -/
def cleanupTick (now : Nat) (tbl : List (String × CEntry)) :
    List (String × CEntry) × List PersistReq :=
  let p1 := pass1 now tbl
  let p2 := pass2 now p1.2.1 p1.1
  (p2.1, p1.2.2 ++ p2.2)

/-- What the read-lock pass does to a single entry. -/
def tickEntry (now : Nat) (e : CEntry) : CEntry :=
  if 0 < e.inUseScan then e
  else if e.conv.dirty = true ∧ persistAfter ≤ now - e.conv.lastPersist
    then { e with conv := (persistConversation e.conv now).1 }
    else e

/-- Whether the read-lock pass marks the entry for eviction. -/
def evictTest (now : Nat) (p : String × CEntry) : Option String :=
  if p.2.inUseScan = 0 ∧ evictAfter ≤ now - p.2.conv.lastActive
  then some p.1 else none

/-- The write request the read-lock pass submits for the entry, if any. -/
def persistTest (now : Nat) (p : String × CEntry) : Option PersistReq :=
  if p.2.inUseScan = 0 ∧ p.2.conv.dirty = true
      ∧ persistAfter ≤ now - p.2.conv.lastPersist
  then some (persistConversation p.2.conv now).2 else none

/-- A concrete dirty, idle conversation for the claim C3 witness. -/
def convW : Conv :=
  ⟨"u", "c", "oa", "mi", "i", 0, [⟨"user", "hi"⟩], 0, 0, true⟩

/-- Its cache entry: not in use at either observation point. -/
def entryW : CEntry := ⟨convW, 0, 0⟩

/-- A one-entry cache table for the claim C3 witness. -/
def tblW : List (String × CEntry) := [("u|c", entryW)]

theorem strConcat_nil : strConcat [] = "" := rfl

theorem strConcat_cons (s : String) (l : List String) :
    strConcat (s :: l) = s ++ strConcat l := rfl

theorem chatAux_spec (parse : String → Option MiuiStreamChunk)
    (endOk : Bool) :
    ∀ (ls : List String) (acc : String) (evs : List String),
      (chatAux parse endOk ls acc evs).events = evs ++ specFragments parse ls
      ∧ (chatAux parse endOk ls acc evs).full
          = acc ++ strConcat (specFragments parse ls) := by
  intro ls
  induction ls with
  | nil =>
    intro acc evs
    simp [chatAux, specFragments, strConcat]
  | cons l ls ih =>
    intro acc evs
    cases h : stepLine parse l with
    | stop =>
      have hns : notStop parse l = false := by simp [notStop, h]
      simp [chatAux, h, specFragments, hns, strConcat]
    | emit a =>
      have hns : notStop parse l = true := by simp [notStop, h]
      have hem : emitOf parse l = some a := by simp [emitOf, h]
      have := ih (acc ++ a) (evs ++ [a])
      simp only [chatAux, h] at *
      constructor
      · rw [this.1]
        simp [specFragments, hns, hem]
      · rw [this.2]
        simp [specFragments, hns, hem, strConcat_cons, String.append_assoc]
    | skip =>
      have hns : notStop parse l = true := by simp [notStop, h]
      have hem : emitOf parse l = none := by simp [emitOf, h]
      have := ih acc evs
      simp only [chatAux, h] at *
      constructor
      · rw [this.1]
        simp [specFragments, hns, hem]
      · rw [this.2]
        simp [specFragments, hns, hem]

theorem chatAux_eof_ok (parse : String → Option MiuiStreamChunk) :
    ∀ (ls : List String) (acc : String) (evs : List String),
      (chatAux parse true ls acc evs).ok = true := by
  intro ls
  induction ls with
  | nil => intro acc evs; rfl
  | cons l ls ih =>
    intro acc evs
    cases h : stepLine parse l with
    | stop => simp [chatAux, h]
    | emit a => simp only [chatAux, h]; exact ih _ _
    | skip => simp only [chatAux, h]; exact ih _ _

theorem chatAux_stop_drops_rest (parse : String → Option MiuiStreamChunk)
    (d : String) (hd : stepLine parse d = .stop) :
    ∀ (pre post : List String) (endOk : Bool) (acc : String)
      (evs : List String),
      chatAux parse endOk (pre ++ d :: post) acc evs
        = chatAux parse true pre acc evs := by
  intro pre
  induction pre with
  | nil =>
    intro post endOk acc evs
    simp [chatAux, hd]
  | cons l pre ih =>
    intro post endOk acc evs
    cases h : stepLine parse l with
    | stop => simp [chatAux, h]
    | emit a => simp only [List.cons_append, chatAux, h]; exact ih _ _ _ _
    | skip => simp only [List.cons_append, chatAux, h]; exact ih _ _ _ _

theorem chatAux_skip_erased (parse : String → Option MiuiStreamChunk)
    (b : String) (hb : stepLine parse b = .skip) :
    ∀ (pre post : List String) (endOk : Bool) (acc : String)
      (evs : List String),
      chatAux parse endOk (pre ++ b :: post) acc evs
        = chatAux parse endOk (pre ++ post) acc evs := by
  intro pre
  induction pre with
  | nil =>
    intro post endOk acc evs
    simp [chatAux, hb]
  | cons l pre ih =>
    intro post endOk acc evs
    cases h : stepLine parse l with
    | stop => simp [chatAux, h]
    | emit a => simp only [List.cons_append, chatAux, h]; exact ih _ _ _ _
    | skip => simp only [List.cons_append, chatAux, h]; exact ih _ _ _ _

/-- Claim C1: on a 200-status stream, `Chat` accumulates every non-empty
`answer` fragment of the valid `data:` lines, in arrival order, into the
returned answer (the returned string is the concatenation of those
fragments), and the callback is invoked exactly once per non-empty fragment
in arrival order before the call returns; in particular the fragment
sequence ["Hel", "lo", " world"] followed by stream end yields the answer
"Hello world" with exactly those three callback events, in order. -/
theorem claim_C1_fragment_accumulation :
    (∀ (parse : String → Option MiuiStreamChunk) (lines : List String)
        (endOk : Bool),
      (chatStream parse lines endOk).events = specFragments parse lines
        ∧ (chatStream parse lines endOk).full
            = strConcat (specFragments parse lines))
    ∧ (∀ (parse : String → Option MiuiStreamChunk) (lines : List String)
        (endOk : Bool),
        (miuiChat parse (.response 200 lines endOk)).1
          = (chatStream parse lines endOk).full)
    ∧ chatStream exampleParse exampleLines true
        = ⟨"Hello world", ["Hel", "lo", " world"], true⟩ := by
  refine ⟨?_, ?_, ?_⟩
  · intro parse lines endOk
    have h := chatAux_spec parse endOk lines "" []
    exact ⟨by simpa [chatStream] using h.1, by simpa [chatStream] using h.2⟩
  · intro parse lines endOk
    simp [miuiChat]
  · decide

/-- Claim C5: a `data:[DONE]` line stops parsing even if further lines
remain unread, and the run is a normal completion (nil error) equal to the
run of the preceding lines alone; a stream that ends with EOF and no
`[DONE]` also completes with a nil error. -/
theorem claim_C5_done_and_eof_are_normal_completion :
    (∀ (parse : String → Option MiuiStreamChunk) (d : String),
      stepLine parse d = .stop →
        ∀ (pre post : List String) (endOk : Bool),
          chatStream parse (pre ++ d :: post) endOk
            = chatStream parse pre true)
    ∧ (∀ (parse : String → Option MiuiStreamChunk) (lines : List String),
        (chatStream parse lines true).ok = true) := by
  constructor
  · intro parse d hd pre post endOk
    exact chatAux_stop_drops_rest parse d hd pre post endOk "" []
  · intro parse lines
    exact chatAux_eof_ok parse lines "" []

/-- Witness for claim C5 at a concrete stream: with an oracle that rejects
every payload, the line "data:[DONE]" is the sentinel, and a stream that
carries it in the middle equals the normal completion of its prefix. -/
theorem claim_C5_witness :
    stepLine (fun _ => none) "data:[DONE]" = .stop
    ∧ chatStream (fun _ => none)
        (["hello"] ++ "data:[DONE]" :: ["data: rest"]) false
      = chatStream (fun _ => none) ["hello"] true := by
  constructor
  · decide
  · exact claim_C5_done_and_eof_are_normal_completion.1 (fun _ => none)
      "data:[DONE]" (by decide) ["hello"] ["data: rest"] false

/-- Claim C6: a `data:` line whose payload fails to unmarshal is skipped
without aborting the stream: the run over a stream containing the malformed
line equals the run over the same stream with that line removed (hence no
callback for it, nothing accumulated from it, and parsing continues). -/
theorem claim_C6_malformed_line_skipped :
    ∀ (parse : String → Option MiuiStreamChunk) (bad : String),
      lStartsWith (goTrimSpaceL bad.data) "data:".data = true →
      goTrimSpaceL (goTrimPre (goTrimSpaceL bad.data) "data:".data)
          ≠ "[DONE]".data →
      parse ⟨goTrimSpaceL (goTrimPre (goTrimSpaceL bad.data) "data:".data)⟩
          = none →
      ∀ (pre post : List String) (endOk : Bool),
        chatStream parse (pre ++ bad :: post) endOk
          = chatStream parse (pre ++ post) endOk := by
  intro parse bad h1 h2 h3 pre post endOk
  have hskip : stepLine parse bad = .skip := by
    simp [stepLine, h1, h2, h3]
  exact chatAux_skip_erased parse bad hskip pre post endOk "" []

/-- Witness for claim C6: a concrete malformed `data:` line in the middle of
a stream is erased from the run. -/
theorem claim_C6_witness :
    lStartsWith (goTrimSpaceL ("data: oops" : String).data) "data:".data
        = true
    ∧ goTrimSpaceL (goTrimPre (goTrimSpaceL ("data: oops" : String).data)
          "data:".data) ≠ "[DONE]".data
    ∧ chatStream exampleParse
          (["data: one"] ++ "data: oops" :: ["data: two"]) true
        = chatStream exampleParse (["data: one"] ++ ["data: two"]) true := by
  refine ⟨by decide, by decide, ?_⟩
  exact claim_C6_malformed_line_skipped exampleParse "data: oops" (by decide)
    (by decide) (by decide) ["data: one"] ["data: two"] true

theorem chatAux_no_stop_ok (parse : String → Option MiuiStreamChunk)
    (endOk : Bool) :
    ∀ (ls : List String) (acc : String) (evs : List String),
      (∀ l ∈ ls, stepLine parse l ≠ .stop) →
      (chatAux parse endOk ls acc evs).ok = endOk := by
  intro ls
  induction ls with
  | nil => intro acc evs _; rfl
  | cons l ls ih =>
    intro acc evs hns
    cases h : stepLine parse l with
    | stop => exact absurd h (hns l (List.mem_cons_self l ls))
    | emit a =>
      simp only [chatAux, h]
      exact ih _ _ (fun x hx => hns x (List.mem_cons_of_mem l hx))
    | skip =>
      simp only [chatAux, h]
      exact ih _ _ (fun x hx => hns x (List.mem_cons_of_mem l hx))

/-- Claim C4: a failed upstream exchange (transport error, non-200 status,
or a mid-stream read failure, which is how cancellation surfaces) leaves
the conversation's history and dirty flag exactly as they were; the turns
are appended and the dirty flag set only when the exchange returns no error
(and the trimmed answer is non-empty). -/
theorem claim_C4_failed_exchange_preserves_history :
    ∀ (parse : String → Option MiuiStreamChunk) (c : ConvMut)
      (query : String) (u : UpstreamOutcome) (t1 t2 : Nat),
      ((miuiChat parse u).2 = true →
        (performChat c query parse u t1 t2).1.history = c.history
          ∧ (performChat c query parse u t1 t2).1.dirty = c.dirty)
      ∧ ((miuiChat parse u).2 = false →
          goTrimSpace (miuiChat parse u).1 ≠ "" →
          (performChat c query parse u t1 t2).1.history
              = c.history ++ [⟨"user", query⟩,
                  ⟨"assistant", (miuiChat parse u).1⟩]
            ∧ (performChat c query parse u t1 t2).1.dirty = true)
      ∧ (miuiChat parse .transportErr).2 = true
      ∧ (∀ (status : Nat) (lines : List String) (endOk : Bool),
          status ≠ 200 →
          (miuiChat parse (.response status lines endOk)).2 = true)
      ∧ (∀ (lines : List String),
          (∀ l ∈ lines, stepLine parse l ≠ .stop) →
          (miuiChat parse (.response 200 lines false)).2 = true) := by
  intro parse c query u t1 t2
  refine ⟨?_, ?_, rfl, ?_, ?_⟩
  · intro herr
    simp [performChat, herr]
  · intro herr hne
    simp [performChat, herr, hne]
  · intro status lines endOk hs
    simp [miuiChat, hs]
  · intro lines hns
    have hok := chatAux_no_stop_ok parse false lines "" [] hns
    simp [miuiChat, chatStream, hok]

/-- Witness for claim C4 at concrete inputs: a transport failure leaves a
one-turn history and clear dirty flag untouched. -/
theorem claim_C4_witness :
    (miuiChat exampleParse .transportErr).2 = true
    ∧ (performChat ⟨[⟨"user", "hi"⟩], false, 0, 0, 0⟩ "q" exampleParse
          .transportErr 1 2).1.history = [⟨"user", "hi"⟩]
    ∧ (performChat ⟨[⟨"user", "hi"⟩], false, 0, 0, 0⟩ "q" exampleParse
          .transportErr 1 2).1.dirty = false := by
  refine ⟨rfl, ?_, ?_⟩
  · exact ((claim_C4_failed_exchange_preserves_history exampleParse
      ⟨[⟨"user", "hi"⟩], false, 0, 0, 0⟩ "q" .transportErr 1 2).1 rfl).1
  · exact ((claim_C4_failed_exchange_preserves_history exampleParse
      ⟨[⟨"user", "hi"⟩], false, 0, 0, 0⟩ "q" .transportErr 1 2).1 rfl).2

/-- Claim C9: a successful exchange whose full answer trims to the empty
string appends nothing, leaves the dirty flag, the persist timestamp and
the in-use counter unchanged, and only updates `LastActive`. -/
theorem claim_C9_blank_answer_only_touches_last_active :
    ∀ (parse : String → Option MiuiStreamChunk) (c : ConvMut)
      (query : String) (u : UpstreamOutcome) (t1 t2 : Nat),
      (miuiChat parse u).2 = false →
      goTrimSpace (miuiChat parse u).1 = "" →
      (performChat c query parse u t1 t2).1.history = c.history
        ∧ (performChat c query parse u t1 t2).1.dirty = c.dirty
        ∧ (performChat c query parse u t1 t2).1.lastActive = t2
        ∧ (performChat c query parse u t1 t2).1.lastPersist = c.lastPersist
        ∧ (performChat c query parse u t1 t2).1.inUse = c.inUse := by
  intro parse c query u t1 t2 herr hblank
  simp [performChat, herr, hblank]

/-- Witness for claim C9: an empty 200-status stream completes without
error with a blank answer and leaves everything but `LastActive`
unchanged. -/
theorem claim_C9_witness :
    (miuiChat exampleParse (.response 200 ["data: four"] true)).2 = false
    ∧ goTrimSpace
        (miuiChat exampleParse (.response 200 ["data: four"] true)).1 = ""
    ∧ (performChat ⟨[⟨"user", "hi"⟩], false, 0, 7, 0⟩ "q" exampleParse
          (.response 200 ["data: four"] true) 1 2).1.history
        = [⟨"user", "hi"⟩]
    ∧ (performChat ⟨[⟨"user", "hi"⟩], false, 0, 7, 0⟩ "q" exampleParse
          (.response 200 ["data: four"] true) 1 2).1.lastActive = 2
    ∧ (performChat ⟨[⟨"user", "hi"⟩], false, 0, 7, 0⟩ "q" exampleParse
          (.response 200 ["data: four"] true) 1 2).1.lastPersist = 7 := by
  refine ⟨by decide, by decide, ?_, ?_, ?_⟩
  · exact (claim_C9_blank_answer_only_touches_last_active exampleParse
      ⟨[⟨"user", "hi"⟩], false, 0, 7, 0⟩ "q"
      (.response 200 ["data: four"] true) 1 2 (by decide) (by decide)).1
  · exact (claim_C9_blank_answer_only_touches_last_active exampleParse
      ⟨[⟨"user", "hi"⟩], false, 0, 7, 0⟩ "q"
      (.response 200 ["data: four"] true) 1 2 (by decide) (by decide)).2.2.1
  · exact (claim_C9_blank_answer_only_touches_last_active exampleParse
      ⟨[⟨"user", "hi"⟩], false, 0, 7, 0⟩ "q"
      (.response 200 ["data: four"] true) 1 2 (by decide) (by decide)).2.2.2.1

theorem runQueue_append_one (db : String × String → Option Row)
    (qs : List PersistReq) (q : PersistReq) :
    runQueue db (qs ++ [q]) = applyReq (runQueue db qs) q := by
  simp [runQueue]

theorem runQueue_untouched (k : String × String) :
    ∀ (qs : List PersistReq) (db : String × String → Option Row),
      (∀ q ∈ qs, (q.userKey, q.conversationId) ≠ k) →
      runQueue db qs k = db k := by
  intro qs
  induction qs with
  | nil => intro db _; rfl
  | cons q qs ih =>
    intro db hq
    have hne : k ≠ (q.userKey, q.conversationId) :=
      fun h => hq q (List.mem_cons_self q qs) h.symm
    have : runQueue db (q :: qs) = runQueue (applyReq db q) qs := rfl
    rw [this, ih (applyReq db q)
      (fun x hx => hq x (List.mem_cons_of_mem q hx))]
    simp [applyReq, hne]

/-- Claim C2: a committed persist writes exactly the snapshot taken at
submission time, and because the single-consumer queue applies requests in
submission (FIFO) order, the row keyed by the conversation always holds the
most recently submitted snapshot: a later request for the same key
overwrites, requests for other keys leave it alone. -/
theorem claim_C2_persist_snapshot_fifo :
    ∀ (db : String × String → Option Row) (qs : List PersistReq)
      (q : PersistReq) (k : String × String),
      (runQueue db (qs ++ [q])) k
        = (if k = (q.userKey, q.conversationId) then some q.row
           else runQueue db qs k)
      ∧ ∀ (qs2 : List PersistReq) (conv : Conv) (now : Nat),
          (∀ q2 ∈ qs2,
            (q2.userKey, q2.conversationId)
              ≠ (conv.userKey, conv.conversationId)) →
          runQueue db (qs ++ (persistConversation conv now).2 :: qs2)
              (conv.userKey, conv.conversationId)
            = some ⟨conv.internalId, conv.history, now⟩ := by
  intro db qs q k
  constructor
  · rw [runQueue_append_one]
    rfl
  · intro qs2 conv now h2
    have hsplit :
        runQueue db (qs ++ (persistConversation conv now).2 :: qs2)
          = runQueue
              (applyReq (runQueue db qs) (persistConversation conv now).2)
              qs2 := by
      simp [runQueue]
    rw [hsplit,
      runQueue_untouched (conv.userKey, conv.conversationId) qs2 _ h2]
    simp [applyReq, persistConversation]

/-- Witness for claim C2: a concrete queue where an unrelated write follows
the persist of a dirty two-turn conversation; reading the key back yields
the submission-time snapshot. -/
theorem claim_C2_witness :
    runQueue (fun _ => none)
        ([⟨"u", "c", ⟨"i0", [], 1⟩⟩]
          ++ (persistConversation
                ⟨"u", "c", "oa", "mi", "i1", 0,
                 [⟨"user", "hi"⟩, ⟨"assistant", "yo"⟩], 5, 1, true⟩ 9).2
            :: [⟨"u", "other", ⟨"i2", [], 9⟩⟩])
        ("u", "c")
      = some ⟨"i1", [⟨"user", "hi"⟩, ⟨"assistant", "yo"⟩], 9⟩ := by
  exact ((claim_C2_persist_snapshot_fifo (fun _ => none)
      [⟨"u", "c", ⟨"i0", [], 1⟩⟩] ⟨"u", "c", ⟨"i0", [], 1⟩⟩
      ("u", "c")).2 [⟨"u", "other", ⟨"i2", [], 9⟩⟩]
      ⟨"u", "c", "oa", "mi", "i1", 0,
       [⟨"user", "hi"⟩, ⟨"assistant", "yo"⟩], 5, 1, true⟩ 9
      (by decide))

theorem lStartsWith_refl : ∀ (l : List Char), lStartsWith l l = true := by
  intro l
  induction l with
  | nil => rfl
  | cons c s ih => simp [lStartsWith, ih]

theorem containsSub_cons (x : Char) (l sub : List Char) :
    containsSub (x :: l) sub
      = (lStartsWith (x :: l) sub || containsSub l sub) := by
  cases h : lStartsWith (x :: l) sub <;> simp [containsSub, h]

theorem containsSub_self : ∀ (l : List Char), containsSub l l = true := by
  intro l
  cases l with
  | nil => rfl
  | cons x xs => simp [containsSub, lStartsWith_refl]

theorem containsSub_append_right (xs ys sub : List Char)
    (h : containsSub ys sub = true) :
    containsSub (xs ++ ys) sub = true := by
  induction xs with
  | nil => simpa using h
  | cons x xs ih => simp [containsSub_cons, ih]

theorem goToLower_append (a b : List Char) :
    goToLower (a ++ b) = goToLower a ++ goToLower b := by
  simp [goToLower]

/-- Counterexample to claim C7 as stated: the model name
"a-search-thinking" ends in `-thinking`, yet with no body flags at all the
parsed options have online search enabled, because the code tests
`strings.Contains`, not a suffix, and the name also contains `-search`. -/
theorem claim_C7_counterexample :
    ("a-search-thinking" : String).data
        = ("a-search" : String).data ++ ("-thinking" : String).data
    ∧ (parseRequestOptions false none none false false false
          (some ("a-search-thinking" : String).data)).onlineSearch = true := by
  constructor
  · decide
  · decide

/-- Claim C7 (amended): a requested model name ending in `-thinking` whose
lower-cased form does not contain `-search` yields deep thinking enabled
and online search disabled regardless of body flags and header overrides,
and a name ending in `-thinking-search` yields both enabled. -/
theorem claim_C7_model_marker_overrides :
    ∀ (name pre : List Char) (bodyStream : Bool)
      (bodyDeep bodySearch : Option Bool) (hDeep hSearch hDisable : Bool),
      (name = pre ++ ("-thinking" : String).data →
        containsSub (goToLower name) ("-search" : String).data = false →
        (parseRequestOptions bodyStream bodyDeep bodySearch hDeep hSearch
            hDisable (some name)).deepThinking = true
          ∧ (parseRequestOptions bodyStream bodyDeep bodySearch hDeep
              hSearch hDisable (some name)).onlineSearch = false)
      ∧ (name = pre ++ ("-thinking-search" : String).data →
        (parseRequestOptions bodyStream bodyDeep bodySearch hDeep hSearch
            hDisable (some name)).deepThinking = true
          ∧ (parseRequestOptions bodyStream bodyDeep bodySearch hDeep
              hSearch hDisable (some name)).onlineSearch = true) := by
  intro name pre bodyStream bodyDeep bodySearch hDeep hSearch hDisable
  constructor
  · intro hname hs
    subst hname
    have hne : pre ++ ("-thinking" : String).data ≠ [] := by simp
    have hlow : goToLower (pre ++ ("-thinking" : String).data)
        = goToLower pre ++ ("-thinking" : String).data := by
      rw [goToLower_append]
      congr 1
    have hdeep : containsSub
        (goToLower (pre ++ ("-thinking" : String).data))
        ("-thinking" : String).data = true := by
      rw [hlow]
      exact containsSub_append_right _ _ _ (containsSub_self _)
    constructor
    · simp [parseRequestOptions, parseModelFlags, hne, hdeep, hs]
    · simp [parseRequestOptions, parseModelFlags, hne, hdeep, hs]
  · intro hname
    subst hname
    have hne : pre ++ ("-thinking-search" : String).data ≠ [] := by simp
    have hlow : goToLower (pre ++ ("-thinking-search" : String).data)
        = goToLower pre ++ ("-thinking-search" : String).data := by
      rw [goToLower_append]
      congr 1
    have hdeep : containsSub
        (goToLower (pre ++ ("-thinking-search" : String).data))
        ("-thinking" : String).data = true := by
      rw [hlow]
      exact containsSub_append_right _ _ _ (by decide)
    have hsr : containsSub
        (goToLower (pre ++ ("-thinking-search" : String).data))
        ("-search" : String).data = true := by
      rw [hlow]
      exact containsSub_append_right _ _ _ (by decide)
    constructor
    · simp [parseRequestOptions, parseModelFlags, hne, hdeep, hsr]
    · simp [parseRequestOptions, parseModelFlags, hne, hdeep, hsr]

/-- Witness for the amended claim C7: with the model "m-thinking" and every
body flag and header asserting search, search is still disabled and deep
thinking enabled; with "m-thinking-search" both are enabled. -/
theorem claim_C7_witness :
    ((parseRequestOptions false (some false) (some true) false true false
        (some ("m-thinking" : String).data)).deepThinking = true
      ∧ (parseRequestOptions false (some false) (some true) false true false
          (some ("m-thinking" : String).data)).onlineSearch = false)
    ∧ ((parseRequestOptions false (some false) (some false) false false true
        (some ("m-thinking-search" : String).data)).deepThinking = true
      ∧ (parseRequestOptions false (some false) (some false) false false
          true (some ("m-thinking-search" : String).data)).onlineSearch
            = true) := by
  constructor
  · exact (claim_C7_model_marker_overrides ("m-thinking" : String).data
      ("m" : String).data false (some false) (some true) false true
      false).1 (by decide) (by decide)
  · exact (claim_C7_model_marker_overrides
      ("m-thinking-search" : String).data ("m" : String).data false
      (some false) (some false) false false true).2 (by decide)

theorem hexEncode_length :
    ∀ (bs : List Nat), (hexEncode bs).length = 2 * bs.length := by
  intro bs
  induction bs with
  | nil => rfl
  | cons b bs ih =>
    simp only [hexEncode, List.map_cons, List.flatten_cons] at *
    simp [hexByte, ih]
    ring

theorem hexDigit_inj_fin :
    ∀ (a b : Fin 16), hexDigit a.val = hexDigit b.val → a = b := by
  decide

theorem hexDigit_inj (a b : Nat) (ha : a < 16) (hb : b < 16)
    (h : hexDigit a = hexDigit b) : a = b := by
  have := hexDigit_inj_fin ⟨a, ha⟩ ⟨b, hb⟩ h
  exact congrArg Fin.val this

theorem hexEncode_inj :
    ∀ (e1 e2 : List Nat), (∀ b ∈ e1, b < 256) → (∀ b ∈ e2, b < 256) →
      e1.length = e2.length → hexEncode e1 = hexEncode e2 → e1 = e2 := by
  intro e1
  induction e1 with
  | nil =>
    intro e2 _ _ hlen _
    cases e2 with
    | nil => rfl
    | cons b bs => simp at hlen
  | cons a as ih =>
    intro e2 h1 h2 hlen henc
    cases e2 with
    | nil => simp at hlen
    | cons b bs =>
      have ha : a < 256 := h1 a (List.mem_cons_self a as)
      have hb : b < 256 := h2 b (List.mem_cons_self b bs)
      simp only [hexEncode, List.map_cons, List.flatten_cons, hexByte,
        List.cons_append, List.nil_append, List.cons.injEq] at henc
      have hd1 : a / 16 = b / 16 :=
        hexDigit_inj _ _ (Nat.div_lt_of_lt_mul (by omega))
          (Nat.div_lt_of_lt_mul (by omega)) henc.1
      have hd2 : a % 16 = b % 16 :=
        hexDigit_inj _ _ (Nat.mod_lt _ (by omega))
          (Nat.mod_lt _ (by omega)) henc.2.1
      have hab : a = b := by omega
      have : as = bs := by
        refine ih bs (fun x hx => h1 x (List.mem_cons_of_mem a hx))
          (fun x hx => h2 x (List.mem_cons_of_mem b hx))
          (by simpa using hlen) ?_
        simpa [hexEncode] using henc.2.2
      rw [hab, this]

theorem hexEncode_digits :
    ∀ (bs : List Nat), (∀ b ∈ bs, b < 256) →
      ∀ c ∈ hexEncode bs,
        (('0' ≤ c ∧ c ≤ '9') ∨ ('a' ≤ c ∧ c ≤ 'f')) := by
  have hfin : ∀ (n : Fin 16),
      (('0' ≤ hexDigit n.val ∧ hexDigit n.val ≤ '9')
        ∨ ('a' ≤ hexDigit n.val ∧ hexDigit n.val ≤ 'f')) := by decide
  intro bs hbs c hc
  simp only [hexEncode, List.mem_flatten, List.mem_map] at hc
  obtain ⟨l, ⟨b, hbmem, rfl⟩, hcl⟩ := hc
  have hb : b < 256 := hbs b hbmem
  simp only [hexByte, List.mem_cons, List.not_mem_nil, or_false] at hcl
  rcases hcl with rfl | rfl
  · exact hfin ⟨b / 16, Nat.div_lt_of_lt_mul (by omega)⟩
  · exact hfin ⟨b % 16, Nat.mod_lt _ (by omega)⟩

/-- Claim C10: an empty (or absent, hence empty after trimming)
Authorization header yields a fresh anonymous key "anon_" followed by 24
lower-case hex characters, and distinct entropy draws give distinct keys;
a value whose case-insensitive leader is "Bearer " yields the token after
the leader, trimmed; any other value is returned trimmed as-is. -/
theorem claim_C10_extract_user_key :
    ∀ (a : List Char) (e e1 e2 : List Nat),
      (goTrimSpaceL a = [] → e.length = 12 → (∀ b ∈ e, b < 256) →
        extractUserKey a e = ("anon_" : String).data ++ hexEncode e
          ∧ (hexEncode e).length = 24
          ∧ ∀ c ∈ hexEncode e,
              (('0' ≤ c ∧ c ≤ '9') ∨ ('a' ≤ c ∧ c ≤ 'f')))
      ∧ (e1.length = 12 → e2.length = 12 → (∀ b ∈ e1, b < 256) →
          (∀ b ∈ e2, b < 256) → e1 ≠ e2 →
          newUserKey e1 ≠ newUserKey e2)
      ∧ (goTrimSpaceL a ≠ [] →
          lStartsWith (goToLower (goTrimSpaceL a)) ("bearer " : String).data
              = true →
          extractUserKey a e = goTrimSpaceL ((goTrimSpaceL a).drop 7))
      ∧ (goTrimSpaceL a ≠ [] →
          lStartsWith (goToLower (goTrimSpaceL a)) ("bearer " : String).data
              = false →
          extractUserKey a e = goTrimSpaceL a) := by
  intro a e e1 e2
  refine ⟨?_, ?_, ?_, ?_⟩
  · intro hempty hlen hbytes
    refine ⟨by simp [extractUserKey, hempty, newUserKey], ?_,
      hexEncode_digits e hbytes⟩
    rw [hexEncode_length, hlen]
  · intro hl1 hl2 hb1 hb2 hne heq
    apply hne
    have : hexEncode e1 = hexEncode e2 := List.append_cancel_left heq
    exact hexEncode_inj e1 e2 hb1 hb2 (by rw [hl1, hl2]) this
  · intro hne hb
    simp [extractUserKey, hne, hb]
  · intro hne hb
    simp [extractUserKey, hne, hb]

/-- Witness for claim C10: a blank header yields the anonymous key of a
concrete 12-byte draw; "  Bearer  tok  " yields "tok"; "plainkey" is
returned as-is. -/
theorem claim_C10_witness :
    extractUserKey ("  " : String).data [0, 1, 2, 3, 4, 5, 6, 7, 8, 9, 255,
        171]
      = ("anon_" : String).data
        ++ hexEncode [0, 1, 2, 3, 4, 5, 6, 7, 8, 9, 255, 171]
    ∧ (hexEncode [0, 1, 2, 3, 4, 5, 6, 7, 8, 9, 255, 171]).length = 24
    ∧ extractUserKey ("  Bearer  tok  " : String).data []
        = goTrimSpaceL
            ((goTrimSpaceL ("  Bearer  tok  " : String).data).drop 7)
    ∧ extractUserKey ("plainkey" : String).data [] =
        goTrimSpaceL ("plainkey" : String).data := by
  refine ⟨?_, ?_, ?_, ?_⟩
  · exact ((claim_C10_extract_user_key ("  " : String).data
      [0, 1, 2, 3, 4, 5, 6, 7, 8, 9, 255, 171] [] []).1 (by decide)
      (by decide) (by decide)).1
  · exact ((claim_C10_extract_user_key ("  " : String).data
      [0, 1, 2, 3, 4, 5, 6, 7, 8, 9, 255, 171] [] []).1 (by decide)
      (by decide) (by decide)).2.1
  · exact ((claim_C10_extract_user_key ("  Bearer  tok  " : String).data
      [] [] []).2.2.1 (by decide) (by decide))
  · exact ((claim_C10_extract_user_key ("plainkey" : String).data
      [] [] []).2.2.2 (by decide) (by decide))

theorem getConversation_inserts (st : StoreSt)
    (userKey conversationID oaidFresh miidFresh : String)
    (nowMs now : Nat) :
    lookupKey
        (getConversation st userKey conversationID oaidFresh miidFresh
            nowMs now).2.convs
        (userKey ++ "|"
          ++ (if conversationID = "" then "default" else conversationID))
      = some (getConversation st userKey conversationID oaidFresh miidFresh
          nowMs now).1 := by
  cases h : lookupKey st.convs
      (userKey ++ "|"
        ++ (if conversationID = "" then "default" else conversationID)) with
  | some c => simp [getConversation, h]
  | none => simp [getConversation, h, lookupKey]

/-- Claim C8: resolving the same `(userKey, sessionId)` twice in immediate
succession returns the same in-memory conversation object and leaves the
store untouched: the second call hits the entry the first call returned or
inserted, allocates nothing (`nextAlloc`, hence every `allocId`, is
unchanged), whatever fresh identifiers or timestamps the second call would
have used. -/
theorem claim_C8_get_conversation_idempotent :
    ∀ (st : StoreSt) (uk cid o1 m1 : String) (ms1 n1 : Nat)
      (o2 m2 : String) (ms2 n2 : Nat),
      (getConversation (getConversation st uk cid o1 m1 ms1 n1).2 uk cid
          o2 m2 ms2 n2).1
        = (getConversation st uk cid o1 m1 ms1 n1).1
      ∧ (getConversation (getConversation st uk cid o1 m1 ms1 n1).2 uk cid
          o2 m2 ms2 n2).2
        = (getConversation st uk cid o1 m1 ms1 n1).2 := by
  intro st uk cid o1 m1 ms1 n1 o2 m2 ms2 n2
  have hins := getConversation_inserts st uk cid o1 m1 ms1 n1
  constructor
  · conv_lhs => rw [getConversation]
    simp only [hins]
  · conv_lhs => rw [getConversation]
    simp only [hins]

theorem tickEntry_inUseScan (now : Nat) (e : CEntry) :
    (tickEntry now e).inUseScan = e.inUseScan := by
  simp only [tickEntry]
  split
  · rfl
  · split <;> rfl

theorem tickEntry_inUseRecheck (now : Nat) (e : CEntry) :
    (tickEntry now e).inUseRecheck = e.inUseRecheck := by
  simp only [tickEntry]
  split
  · rfl
  · split <;> rfl

theorem tickEntry_conv_userKey (now : Nat) (e : CEntry) :
    (tickEntry now e).conv.userKey = e.conv.userKey := by
  simp only [tickEntry]
  split
  · rfl
  · split <;> simp [persistConversation]

theorem tickEntry_conv_conversationId (now : Nat) (e : CEntry) :
    (tickEntry now e).conv.conversationId = e.conv.conversationId := by
  simp only [tickEntry]
  split
  · rfl
  · split <;> simp [persistConversation]

theorem tickEntry_conv_history (now : Nat) (e : CEntry) :
    (tickEntry now e).conv.history = e.conv.history := by
  simp only [tickEntry]
  split
  · rfl
  · split <;> simp [persistConversation]

theorem tickEntry_of_inUse (now : Nat) (e : CEntry)
    (h : 0 < e.inUseScan) : tickEntry now e = e := by
  simp [tickEntry, h]

theorem lookupKey_mem {α : Type} :
    ∀ (tbl : List (String × α)) (k : String) (v : α),
      lookupKey tbl k = some v → (k, v) ∈ tbl := by
  intro tbl
  induction tbl with
  | nil => intro k v h; simp [lookupKey] at h
  | cons p rest ih =>
    intro k v h
    obtain ⟨k0, v0⟩ := p
    by_cases hk : k0 = k
    · subst hk
      simp [lookupKey] at h
      subst h
      exact List.mem_cons_self _ _
    · simp [lookupKey, hk] at h
      exact List.mem_cons_of_mem _ (ih k v h)

theorem mem_lookupKey {α : Type} :
    ∀ (tbl : List (String × α)) (k : String) (v : α),
      (tbl.map Prod.fst).Nodup → (k, v) ∈ tbl →
      lookupKey tbl k = some v := by
  intro tbl
  induction tbl with
  | nil => intro k v _ h; simp at h
  | cons p rest ih =>
    intro k v hnd hm
    obtain ⟨k0, v0⟩ := p
    simp only [List.map_cons, List.nodup_cons] at hnd
    rcases List.mem_cons.1 hm with heq | htail
    · cases heq
      simp [lookupKey]
    · by_cases hk : k0 = k
      · subst hk
        exact absurd (List.mem_map_of_mem Prod.fst htail) hnd.1
      · simp only [lookupKey, hk, if_false]
        exact ih k v hnd.2 htail

theorem lookupKey_map {α β : Type} (f : α → β) :
    ∀ (tbl : List (String × α)) (k : String),
      lookupKey (tbl.map (fun p => (p.1, f p.2))) k
        = (lookupKey tbl k).map f := by
  intro tbl
  induction tbl with
  | nil => intro k; rfl
  | cons p rest ih =>
    intro k
    obtain ⟨k0, v0⟩ := p
    by_cases hk : k0 = k <;> simp [lookupKey, hk, ih]

theorem eraseKey_cons {α : Type} (k1 : String) (v1 : α)
    (rest : List (String × α)) (key : String) :
    eraseKey ((k1, v1) :: rest) key
      = if k1 = key then eraseKey rest key
        else (k1, v1) :: eraseKey rest key := by
  by_cases h : k1 = key <;> simp [eraseKey, h]

theorem lookupKey_erase_ne {α : Type} :
    ∀ (tbl : List (String × α)) (k0 k : String), k ≠ k0 →
      lookupKey (eraseKey tbl k0) k = lookupKey tbl k := by
  intro tbl
  induction tbl with
  | nil => intro k0 k _; rfl
  | cons p rest ih =>
    intro k0 k hne
    obtain ⟨k1, v1⟩ := p
    rw [eraseKey_cons]
    by_cases h1 : k1 = k0
    · rw [if_pos h1, ih k0 k hne]
      have h2 : k1 ≠ k := by
        rw [h1]
        exact fun h => hne h.symm
      simp [lookupKey, h2]
    · rw [if_neg h1]
      by_cases h2 : k1 = k <;> simp [lookupKey, h2, ih k0 k hne]

theorem lookupKey_erase_self {α : Type} :
    ∀ (tbl : List (String × α)) (k : String),
      lookupKey (eraseKey tbl k) k = none := by
  intro tbl
  induction tbl with
  | nil => intro k; rfl
  | cons p rest ih =>
    intro k
    obtain ⟨k1, v1⟩ := p
    rw [eraseKey_cons]
    by_cases h1 : k1 = k
    · rw [if_pos h1]
      exact ih k
    · rw [if_neg h1]
      simp [lookupKey, h1, ih k]

theorem lookupKey_erase_some {α : Type} (tbl : List (String × α))
    (k0 k : String) (v : α)
    (h : lookupKey (eraseKey tbl k0) k = some v) :
    lookupKey tbl k = some v := by
  by_cases hk : k = k0
  · subst hk
    rw [lookupKey_erase_self] at h
    exact absurd h (by simp)
  · rwa [lookupKey_erase_ne tbl k0 k hk] at h

theorem mem_unique_of_nodup {α : Type} (tbl : List (String × α))
    (k : String) (a b : α) (hnd : (tbl.map Prod.fst).Nodup)
    (ha : (k, a) ∈ tbl) (hb : (k, b) ∈ tbl) : a = b := by
  have h1 := mem_lookupKey tbl k a hnd ha
  have h2 := mem_lookupKey tbl k b hnd hb
  exact Option.some.inj (h1.symm.trans h2)

theorem pass1_eq (now : Nat) :
    ∀ (tbl : List (String × CEntry)),
      pass1 now tbl
        = (tbl.map (fun p => (p.1, tickEntry now p.2)),
           tbl.filterMap (evictTest now),
           tbl.filterMap (persistTest now)) := by
  intro tbl
  induction tbl with
  | nil => rfl
  | cons p rest ih =>
    obtain ⟨k, e⟩ := p
    obtain ⟨ec, es, er⟩ := e
    by_cases hs : 0 < es
    · have hz : ¬es = 0 := by omega
      simp [pass1, hs, ih, tickEntry, evictTest, persistTest, hz]
    · have hz : es = 0 := by omega
      subst hz
      by_cases hp : ec.dirty = true ∧ persistAfter ≤ now - ec.lastPersist
      · by_cases hev : evictAfter ≤ now - ec.lastActive <;>
          simp [pass1, hs, ih, tickEntry, evictTest, persistTest, hp, hev]
      · by_cases hev : evictAfter ≤ now - ec.lastActive <;>
          simp [pass1, hs, ih, tickEntry, evictTest, persistTest, hp, hev]

theorem pass2_lookup_not_mem (now : Nat) :
    ∀ (ks : List String) (tbl : List (String × CEntry)) (k : String),
      k ∉ ks →
      lookupKey (pass2 now ks tbl).1 k = lookupKey tbl k := by
  intro ks
  induction ks with
  | nil => intro tbl k _; rfl
  | cons k0 ks ih =>
    intro tbl k hk
    have hk0 : k ≠ k0 := fun h => hk (h ▸ List.mem_cons_self k0 ks)
    have hks : k ∉ ks := fun h => hk (List.mem_cons_of_mem k0 h)
    cases h0 : lookupKey tbl k0 with
    | none =>
      simp only [pass2, h0]
      exact ih tbl k hks
    | some e =>
      by_cases hr : 0 < e.inUseRecheck
      · simp only [pass2, h0, if_pos hr]
        exact ih tbl k hks
      · simp only [pass2, h0, if_neg hr]
        rw [ih (eraseKey tbl k0) k hks, lookupKey_erase_ne tbl k0 k hk0]

theorem pass2_events (now : Nat) :
    ∀ (ks : List String) (tbl : List (String × CEntry)),
      ∀ r ∈ (pass2 now ks tbl).2,
        ∃ k2 e2, k2 ∈ ks ∧ lookupKey tbl k2 = some e2
          ∧ e2.inUseRecheck = 0
          ∧ r = (persistConversation e2.conv now).2 := by
  intro ks
  induction ks with
  | nil => intro tbl r hr; simp [pass2] at hr
  | cons k0 ks ih =>
    intro tbl r hr
    cases h0 : lookupKey tbl k0 with
    | none =>
      simp only [pass2, h0] at hr
      obtain ⟨k2, e2, hk2, hlk, hrc, hre⟩ := ih tbl r hr
      exact ⟨k2, e2, List.mem_cons_of_mem _ hk2, hlk, hrc, hre⟩
    | some e =>
      by_cases hrch : 0 < e.inUseRecheck
      · simp only [pass2, h0, if_pos hrch] at hr
        obtain ⟨k2, e2, hk2, hlk, hrc, hre⟩ := ih tbl r hr
        exact ⟨k2, e2, List.mem_cons_of_mem _ hk2, hlk, hrc, hre⟩
      · simp only [pass2, h0, if_neg hrch] at hr
        rcases List.mem_cons.1 hr with heq | htail
        · exact ⟨k0, e, List.mem_cons_self _ _, h0, by omega, heq⟩
        · obtain ⟨k2, e2, hk2, hlk, hrc, hre⟩ :=
            ih (eraseKey tbl k0) r htail
          exact ⟨k2, e2, List.mem_cons_of_mem _ hk2,
            lookupKey_erase_some tbl k0 k2 e2 hlk, hrc, hre⟩

theorem pass2_deleted (now : Nat) :
    ∀ (ks : List String) (tbl : List (String × CEntry)) (k : String)
      (e : CEntry),
      lookupKey tbl k = some e →
      lookupKey (pass2 now ks tbl).1 k = none →
      e.inUseRecheck = 0
        ∧ (persistConversation e.conv now).2 ∈ (pass2 now ks tbl).2 := by
  intro ks
  induction ks with
  | nil =>
    intro tbl k e hlk hnone
    have : (pass2 now ([] : List String) tbl).1 = tbl := rfl
    rw [this, hlk] at hnone
    exact absurd hnone (by simp)
  | cons k0 ks ih =>
    intro tbl k e hlk hnone
    cases h0 : lookupKey tbl k0 with
    | none =>
      simp only [pass2, h0] at hnone ⊢
      exact ih tbl k e hlk hnone
    | some e0 =>
      by_cases hrch : 0 < e0.inUseRecheck
      · simp only [pass2, h0, if_pos hrch] at hnone ⊢
        exact ih tbl k e hlk hnone
      · simp only [pass2, h0, if_neg hrch] at hnone ⊢
        by_cases hkk : k = k0
        · subst hkk
          rw [hlk] at h0
          injection h0 with h0
          subst h0
          exact ⟨by omega, List.mem_cons_self _ _⟩
        · have hlk2 : lookupKey (eraseKey tbl k0) k = some e := by
            rw [lookupKey_erase_ne tbl k0 k hkk]
            exact hlk
          obtain ⟨h1, h2⟩ := ih (eraseKey tbl k0) k e hlk2 hnone
          exact ⟨h1, List.mem_cons_of_mem _ h2⟩

theorem evict_mem_scan_zero (now : Nat) (tbl : List (String × CEntry))
    (k : String) (e : CEntry) (hnd : (tbl.map Prod.fst).Nodup)
    (hmem : (k, e) ∈ tbl)
    (hkE : k ∈ tbl.filterMap (evictTest now)) : e.inUseScan = 0 := by
  obtain ⟨p, hpmem, hpe⟩ := List.mem_filterMap.1 hkE
  by_cases hcond :
      (p.2.inUseScan = 0 ∧ evictAfter ≤ now - p.2.conv.lastActive)
  · simp only [evictTest] at hpe
    rw [if_pos hcond] at hpe
    have hp1k : p.1 = k := Option.some.inj hpe
    have hpm : (k, p.2) ∈ tbl := by
      rw [← hp1k]
      exact hpmem
    have hpe2 : p.2 = e := mem_unique_of_nodup tbl k p.2 e hnd hpm hmem
    rw [← hpe2]
    exact hcond.1
  · simp only [evictTest] at hpe
    rw [if_neg hcond] at hpe
    exact absurd hpe (by simp)

theorem cleanup_scan_kept (now : Nat) (tbl : List (String × CEntry))
    (k : String) (e : CEntry) (hnd : (tbl.map Prod.fst).Nodup)
    (hmem : (k, e) ∈ tbl) (hs : 0 < e.inUseScan) :
    lookupKey (cleanupTick now tbl).1 k = some e := by
  have hlk := mem_lookupKey tbl k e hnd hmem
  have hp1 := pass1_eq now tbl
  have hkE : k ∉ tbl.filterMap (evictTest now) := by
    intro hkmem
    have := evict_mem_scan_zero now tbl k e hnd hmem hkmem
    omega
  have hct1 : (cleanupTick now tbl).1
      = (pass2 now (tbl.filterMap (evictTest now))
          (tbl.map (fun p => (p.1, tickEntry now p.2)))).1 := by
    simp [cleanupTick, hp1]
  rw [hct1,
    pass2_lookup_not_mem now (tbl.filterMap (evictTest now))
      (tbl.map (fun p => (p.1, tickEntry now p.2))) k hkE,
    lookupKey_map (tickEntry now) tbl k, hlk]
  simp [tickEntry_of_inUse now e hs]

/-- Claim C3: for any tick of the cleanup loop, a conversation whose in-use
counter is positive when the read-lock scan examines it is neither removed
from the table nor persisted by the tick; a conversation is removed only
when its counter was observed zero both during the scan and at the
write-lock re-check; and every removed conversation has a persist request
(carrying its history) submitted by the same tick. -/
theorem claim_C3_cleanup_respects_in_use :
    ∀ (now : Nat) (tbl : List (String × CEntry)) (k : String) (e : CEntry),
      (tbl.map Prod.fst).Nodup →
      (k, e) ∈ tbl →
      ((0 < e.inUseScan →
          lookupKey (cleanupTick now tbl).1 k = some e
            ∧ ((∀ p ∈ tbl, p.1 ≠ k →
                  (p.2.conv.userKey, p.2.conv.conversationId)
                    ≠ (e.conv.userKey, e.conv.conversationId)) →
                ∀ r ∈ (cleanupTick now tbl).2,
                  (r.userKey, r.conversationId)
                    ≠ (e.conv.userKey, e.conv.conversationId)))
        ∧ (lookupKey (cleanupTick now tbl).1 k = none →
            e.inUseScan = 0 ∧ e.inUseRecheck = 0)
        ∧ (lookupKey (cleanupTick now tbl).1 k = none →
            ∃ r ∈ (cleanupTick now tbl).2,
              r.userKey = e.conv.userKey
                ∧ r.conversationId = e.conv.conversationId
                ∧ r.row.historyJson = e.conv.history)) := by
  intro now tbl k e hnd hmem
  have hlk := mem_lookupKey tbl k e hnd hmem
  have hp1 := pass1_eq now tbl
  have hct1 : (cleanupTick now tbl).1
      = (pass2 now (tbl.filterMap (evictTest now))
          (tbl.map (fun p => (p.1, tickEntry now p.2)))).1 := by
    simp [cleanupTick, hp1]
  have hct2 : (cleanupTick now tbl).2
      = tbl.filterMap (persistTest now)
        ++ (pass2 now (tbl.filterMap (evictTest now))
            (tbl.map (fun p => (p.1, tickEntry now p.2)))).2 := by
    simp [cleanupTick, hp1]
  have hlkmap : lookupKey
      (tbl.map (fun p => (p.1, tickEntry now p.2))) k
      = some (tickEntry now e) := by
    rw [lookupKey_map (tickEntry now) tbl k, hlk]
    rfl
  refine ⟨?_, ?_, ?_⟩
  · intro hs
    refine ⟨cleanup_scan_kept now tbl k e hnd hmem hs, ?_⟩
    intro hdist r hr
    rw [hct2] at hr
    rcases List.mem_append.1 hr with h1 | h2
    · obtain ⟨p, hpmem, hpt⟩ := List.mem_filterMap.1 h1
      by_cases hcond : (p.2.inUseScan = 0 ∧ p.2.conv.dirty = true
          ∧ persistAfter ≤ now - p.2.conv.lastPersist)
      · simp only [persistTest] at hpt
        rw [if_pos hcond] at hpt
        have hre : (persistConversation p.2.conv now).2 = r :=
          Option.some.inj hpt
        have hru : r.userKey = p.2.conv.userKey := by
          rw [← hre]
          simp [persistConversation]
        have hrc : r.conversationId = p.2.conv.conversationId := by
          rw [← hre]
          simp [persistConversation]
        intro hpair
        by_cases hpk : p.1 = k
        · have hpm : (k, p.2) ∈ tbl := by
            rw [← hpk]
            exact hpmem
          have hpe2 : p.2 = e := mem_unique_of_nodup tbl k p.2 e hnd hpm
            hmem
          rw [hpe2] at hcond
          omega
        · exact (hdist p hpmem hpk) (by rw [← hru, ← hrc]; exact hpair)
      · simp only [persistTest] at hpt
        rw [if_neg hcond] at hpt
        exact absurd hpt (by simp)
    · obtain ⟨k2, e2, hk2mem, hlk2, hrc2, hre⟩ :=
        pass2_events now (tbl.filterMap (evictTest now))
          (tbl.map (fun p => (p.1, tickEntry now p.2))) r h2
      rw [lookupKey_map (tickEntry now) tbl k2] at hlk2
      cases h3 : lookupKey tbl k2 with
      | none => rw [h3] at hlk2; exact absurd hlk2 (by simp)
      | some e3 =>
        rw [h3] at hlk2
        have he2 : e2 = tickEntry now e3 := (Option.some.inj hlk2).symm
        have hru : r.userKey = e3.conv.userKey := by
          rw [hre, he2]
          simp [persistConversation, tickEntry_conv_userKey]
        have hrc : r.conversationId = e3.conv.conversationId := by
          rw [hre, he2]
          simp [persistConversation, tickEntry_conv_conversationId]
        intro hpair
        by_cases hk2k : k2 = k
        · rw [hk2k] at h3
          have he3 : e3 = e := Option.some.inj (h3.symm.trans hlk)
          rw [hk2k] at hk2mem
          have := evict_mem_scan_zero now tbl k e hnd hmem hk2mem
          omega
        · have hm3 : (k2, e3) ∈ tbl := lookupKey_mem tbl k2 e3 h3
          exact (hdist (k2, e3) hm3 hk2k)
            (by rw [← hru, ← hrc]; exact hpair)
  · intro hnone
    have hs0 : ¬0 < e.inUseScan := by
      intro hs
      rw [cleanup_scan_kept now tbl k e hnd hmem hs] at hnone
      exact absurd hnone (by simp)
    rw [hct1] at hnone
    obtain ⟨hrc, _⟩ := pass2_deleted now (tbl.filterMap (evictTest now))
      (tbl.map (fun p => (p.1, tickEntry now p.2))) k (tickEntry now e)
      hlkmap hnone
    refine ⟨by omega, ?_⟩
    rw [← tickEntry_inUseRecheck now e]
    exact hrc
  · intro hnone
    rw [hct1] at hnone
    obtain ⟨_, hmem2⟩ := pass2_deleted now (tbl.filterMap (evictTest now))
      (tbl.map (fun p => (p.1, tickEntry now p.2))) k (tickEntry now e)
      hlkmap hnone
    refine ⟨(persistConversation (tickEntry now e).conv now).2, ?_, ?_, ?_,
      ?_⟩
    · rw [hct2]
      exact List.mem_append_right _ hmem2
    · simp [persistConversation, tickEntry_conv_userKey]
    · simp [persistConversation, tickEntry_conv_conversationId]
    · simp [persistConversation, tickEntry_conv_history]

/-- Witness for claim C3: at tick time 100 the idle entry is evicted, its
in-use counter was zero at both checks, and a persist request carrying its
history is submitted by the tick. -/
theorem claim_C3_witness :
    lookupKey (cleanupTick 100 tblW).1 "u|c" = none
    ∧ (entryW.inUseScan = 0 ∧ entryW.inUseRecheck = 0)
    ∧ ∃ r ∈ (cleanupTick 100 tblW).2,
        r.userKey = entryW.conv.userKey
          ∧ r.conversationId = entryW.conv.conversationId
          ∧ r.row.historyJson = entryW.conv.history := by
  have h := claim_C3_cleanup_respects_in_use 100 tblW "u|c" entryW
    (by decide) (by decide)
  exact ⟨by decide, h.2.1 (by decide), h.2.2 (by decide)⟩

end MBrowser
